import Mathlib

/-!
Verification development for the yasched repository, a YAML-driven recurring
task scheduler.

The development shallowly embeds the two layers of the code base that the
checked properties are about:

* the calendar/time library under `src/yasched/timing/` (`Day.py`, `Time.py`,
  `Moment.py`, `TimeSlot.py`, `Periodic.py`), which wraps Python's
  `datetime.date` / `datetime.datetime`;
* the scheduling engine in `yasched/scheduler.py` (`Task`, `Scheduler`),
  which drives the third-party `schedule` library through its process-wide
  default registry.

Modelling conventions, chosen once and used throughout:

* Python `datetime.date` / `datetime.datetime` are records of integer fields
  with a validity predicate mirroring the constructors' `ValueError` checks.
  Arithmetic (`date + timedelta(days=n)`, `datetime + timedelta(seconds=s)`)
  is modelled on the unbounded proleptic Gregorian calendar: the year range
  1..9999 that `datetime` additionally enforces on arithmetic results is
  abstracted away, while construction-time validation (the `ValueError`s the
  claims are about) is kept.  Integer division in the model is Euclidean
  division, which agrees with Python floor division for the positive
  divisors used here.
* `datetime.timestamp()` / `datetime.fromtimestamp()` are interpreted with the
  local timezone fixed to UTC; this is the interpretation under which the
  repository's own test suite (`tests/utils/test_time.py`,
  `tests/utils/test_periodic.py`) passes.  Under it, `timestamp` is exactly
  "seconds since 1970-01-01 00:00:00" of the naive field values.
* Python exceptions are modelled with `Option`/`Except`/explicit error
  results; a stateful operation returns its error together with the state as
  it stands at the raise point.
* The `while True:` enumeration loop of `Periodic.get_occurrences` is
  modelled with explicit fuel counting loop iterations; `none` means the
  fuel was exhausted, so "the loop diverges" is rendered as "the result is
  `none` for every fuel".
-/

namespace Yasched

/-- Leap-year test of the proleptic Gregorian calendar, as used by Python's
`datetime` module: divisible by 4 and not by 100, or divisible by 400. -/
def isLeap (y : Int) : Bool :=
  (y % 4 == 0 && y % 100 != 0) || y % 400 == 0

/-- Number of days in month `m` of year `y` (Gregorian): 30 days for
April, June, September and November, 28/29 for February, 31 otherwise. -/
def daysInMonth (y m : Int) : Int :=
  if m = 2 then (if isLeap y then 29 else 28)
  else if m = 4 ∨ m = 6 ∨ m = 9 ∨ m = 11 then 30
  else 31

/-- Model of `yasched.timing.Day`: a calendar date, wrapping Python's
`datetime.date` field triple `(year, month, day)`. -/
structure Day where
  year : Int
  month : Int
  day : Int
deriving DecidableEq, Repr

/-- Field well-formedness of a date, without Python's year range restriction:
month in 1..12 and day in 1..daysInMonth. -/
def Day.Ok (d : Day) : Prop :=
  1 ≤ d.month ∧ d.month ≤ 12 ∧ 1 ≤ d.day ∧ d.day ≤ daysInMonth d.year d.month

instance (d : Day) : Decidable d.Ok := by unfold Day.Ok; infer_instance

/-- Validity check performed by `datetime.date.__init__` (hence by
`Day.__init__`, which raises `ValueError` otherwise): year in 1..9999,
month in 1..12, day in 1..daysInMonth. -/
def Day.Valid (d : Day) : Prop :=
  1 ≤ d.year ∧ d.year ≤ 9999 ∧ d.Ok

instance (d : Day) : Decidable d.Valid := by unfold Day.Valid; infer_instance

/-- Construction of a `Day`, modelling `Day.__init__`: `some` on a valid
date, `none` where Python raises `ValueError`. -/
def Day.mk? (y m d : Int) : Option Day :=
  if (Day.mk y m d).Valid then some (Day.mk y m d) else none

/-- The calendar day after `d` (day-level successor, rolling over months and
years). -/
def Day.succ (d : Day) : Day :=
  if d.day < daysInMonth d.year d.month then ⟨d.year, d.month, d.day + 1⟩
  else if d.month < 12 then ⟨d.year, d.month + 1, 1⟩
  else ⟨d.year + 1, 1, 1⟩

/-- The calendar day before `d` (day-level predecessor). -/
def Day.pred (d : Day) : Day :=
  if 1 < d.day then ⟨d.year, d.month, d.day - 1⟩
  else if 1 < d.month then ⟨d.year, d.month - 1, daysInMonth d.year (d.month - 1)⟩
  else ⟨d.year - 1, 12, 31⟩

/-- Shift a date by `n` calendar days (either direction). -/
def Day.shift (d : Day) (n : Int) : Day :=
  if 0 ≤ n then Day.succ^[n.toNat] d else Day.pred^[(-n).toNat] d

/-- Model of `Day.add_days`: `self._date + timedelta(days=n)`, i.e. the date
`n` days later on the (unbounded) proleptic Gregorian calendar. -/
def Day.add_days (d : Day) (n : Int) : Day :=
  d.shift n

/-- Days strictly before year `y` in the proleptic Gregorian calendar
(year 1 starts at ordinal 1, as in Python's `date.toordinal`). -/
def daysBeforeYear (y : Int) : Int :=
  365 * (y - 1) + (y - 1) / 4 - (y - 1) / 100 + (y - 1) / 400

/-- Days of year `y` strictly before month `m`. -/
def daysBeforeMonth (y m : Int) : Int :=
  (if m = 1 then 0
   else if m = 2 then 31
   else if m = 3 then 59
   else if m = 4 then 90
   else if m = 5 then 120
   else if m = 6 then 151
   else if m = 7 then 181
   else if m = 8 then 212
   else if m = 9 then 243
   else if m = 10 then 273
   else if m = 11 then 304
   else 334)
  + (if 2 < m ∧ isLeap y then 1 else 0)

/-- Proleptic Gregorian ordinal of a date (0001-01-01 has ordinal 1), as in
Python's `date.toordinal`. -/
def Day.toOrdinal (d : Day) : Int :=
  daysBeforeYear d.year + daysBeforeMonth d.year d.month + d.day

/-- Days since the Unix epoch 1970-01-01. -/
def Day.epochDay (d : Day) : Int :=
  d.toOrdinal - 719163

/-- Python's `date.__lt__`, a lexicographic comparison of the fields. -/
def Day.ltb (a b : Day) : Bool :=
  a.year < b.year ∨ (a.year = b.year ∧
    (a.month < b.month ∨ (a.month = b.month ∧ a.day < b.day)))

theorem daysInMonth_bounds (y m : Int) :
    28 ≤ daysInMonth y m ∧ daysInMonth y m ≤ 31 := by
  unfold daysInMonth
  split_ifs <;> omega

theorem daysInMonth_twelve (y : Int) : daysInMonth y 12 = 31 := by
  simp [daysInMonth]

theorem Day.succ_ok (d : Day) (h : d.Ok) : d.succ.Ok := by
  obtain ⟨y, m, dd⟩ := d
  simp only [Day.Ok] at h
  obtain ⟨h1, h2, h3, h4⟩ := h
  have hb1 := daysInMonth_bounds y (m + 1)
  have hb2 := daysInMonth_bounds (y + 1) 1
  simp only [Day.succ]
  split_ifs <;> simp only [Day.Ok] <;> omega

theorem Day.pred_ok (d : Day) (h : d.Ok) : d.pred.Ok := by
  obtain ⟨y, m, dd⟩ := d
  simp only [Day.Ok] at h
  obtain ⟨h1, h2, h3, h4⟩ := h
  have hb1 := daysInMonth_bounds y (m - 1)
  have hb2 := daysInMonth_twelve (y - 1)
  simp only [Day.pred]
  split_ifs <;> simp only [Day.Ok] <;> omega

theorem Day.pred_succ (d : Day) (h : d.Ok) : d.succ.pred = d := by
  obtain ⟨y, m, dd⟩ := d
  simp only [Day.Ok] at h
  obtain ⟨h1, h2, h3, h4⟩ := h
  have hb := daysInMonth_bounds y m
  simp only [Day.succ]
  rcases lt_trichotomy dd (daysInMonth y m) with hc1 | hc1 | hc1
  · rw [if_pos hc1]
    simp only [Day.pred]
    rw [if_pos (show (1 : Int) < dd + 1 by omega)]
    simp
  · rw [if_neg (by omega)]
    by_cases hm : m < 12
    · rw [if_pos hm]
      simp only [Day.pred]
      rw [if_neg (by omega), if_pos (show (1 : Int) < m + 1 by omega)]
      simp only [Day.mk.injEq, add_sub_cancel_right, true_and, and_true]
      try omega
    · have hm12 : m = 12 := by omega
      subst hm12
      rw [if_neg (by omega)]
      simp only [Day.pred]
      rw [if_neg (by omega), if_neg (by omega)]
      have h12 := daysInMonth_twelve y
      simp only [Day.mk.injEq, add_sub_cancel_right, true_and, and_true]
      omega
  · exfalso; omega

theorem Day.succ_pred (d : Day) (h : d.Ok) : d.pred.succ = d := by
  obtain ⟨y, m, dd⟩ := d
  simp only [Day.Ok] at h
  obtain ⟨h1, h2, h3, h4⟩ := h
  have hb := daysInMonth_bounds y m
  simp only [Day.pred]
  rcases lt_trichotomy 1 dd with hc1 | hc1 | hc1
  · rw [if_pos hc1]
    simp only [Day.succ]
    rw [if_pos (show dd - 1 < daysInMonth y m by omega)]
    simp only [Day.mk.injEq, sub_add_cancel, true_and, and_true]
    try omega
  · rw [if_neg (by omega)]
    by_cases hm : 1 < m
    · rw [if_pos hm]
      simp only [Day.succ]
      have hbm := daysInMonth_bounds y (m - 1)
      rw [if_neg (by omega), if_pos (by omega : m - 1 < 12)]
      simp only [Day.mk.injEq, sub_add_cancel, true_and, and_true]
      try omega
    · have hm1 : m = 1 := by omega
      subst hm1
      rw [if_neg (by omega)]
      simp only [Day.succ]
      have h12 := daysInMonth_twelve (y - 1)
      rw [if_neg (by omega), if_neg (by omega)]
      simp only [Day.mk.injEq, sub_add_cancel, true_and, and_true]
      try omega
  · exfalso; omega

theorem Day.succ_iter_ok (d : Day) (h : d.Ok) (k : Nat) : (Day.succ^[k] d).Ok := by
  induction k with
  | zero => simpa using h
  | succ k ih =>
    rw [Function.iterate_succ_apply']
    exact Day.succ_ok _ ih

theorem Day.pred_iter_ok (d : Day) (h : d.Ok) (k : Nat) : (Day.pred^[k] d).Ok := by
  induction k with
  | zero => simpa using h
  | succ k ih =>
    rw [Function.iterate_succ_apply']
    exact Day.pred_ok _ ih

theorem Day.pred_iter_succ_iter (d : Day) (h : d.Ok) (k : Nat) :
    Day.pred^[k] (Day.succ^[k] d) = d := by
  induction k with
  | zero => simp
  | succ k ih =>
    rw [Function.iterate_succ_apply' (f := Day.succ), Function.iterate_succ_apply (f := Day.pred)]
    rw [Day.pred_succ _ (Day.succ_iter_ok d h k)]
    exact ih

theorem Day.succ_iter_pred_iter (d : Day) (h : d.Ok) (k : Nat) :
    Day.succ^[k] (Day.pred^[k] d) = d := by
  induction k with
  | zero => simp
  | succ k ih =>
    rw [Function.iterate_succ_apply' (f := Day.pred), Function.iterate_succ_apply (f := Day.succ)]
    rw [Day.succ_pred _ (Day.pred_iter_ok d h k)]
    exact ih

theorem Day.shift_shift_neg (d : Day) (h : d.Ok) (n : Int) :
    (d.shift n).shift (-n) = d := by
  unfold Day.shift
  rcases le_or_lt 0 n with hn | hn
  · rcases eq_or_lt_of_le hn with hz | hp
    · simp [← hz]
    · have h1 : ¬ (0 ≤ -n) := by omega
      simp only [hn, if_pos, h1, if_neg, neg_neg]
      exact Day.pred_iter_succ_iter d h n.toNat
  · have h1 : ¬ (0 ≤ n) := by omega
    have h2 : (0 ≤ -n) := by omega
    simp only [h1, if_neg, h2, if_pos]
    exact Day.succ_iter_pred_iter d h (-n).toNat

theorem isLeap_iff (y : Int) :
    isLeap y = true ↔ ((y % 4 = 0 ∧ y % 100 ≠ 0) ∨ y % 400 = 0) := by
  simp [isLeap]

theorem daysBeforeYear_step (y : Int) :
    daysBeforeYear (y + 1) = daysBeforeYear y + 365 + (if isLeap y then 1 else 0) := by
  have hiff := isLeap_iff y
  unfold daysBeforeYear
  split_ifs with hl
  · rw [hiff] at hl
    omega
  · rw [hiff] at hl
    push_neg at hl
    omega

theorem daysBeforeMonth_step (y m : Int) (h1 : 1 ≤ m) (h2 : m ≤ 11) :
    daysBeforeMonth y (m + 1) = daysBeforeMonth y m + daysInMonth y m := by
  interval_cases m <;> simp [daysBeforeMonth, daysInMonth] <;> split_ifs <;> omega

theorem daysBeforeMonth_one (y : Int) : daysBeforeMonth y 1 = 0 := by
  simp [daysBeforeMonth]

theorem daysBeforeMonth_twelve (y : Int) :
    daysBeforeMonth y 12 = 334 + (if isLeap y then 1 else 0) := by
  simp [daysBeforeMonth]

theorem Day.toOrdinal_succ (d : Day) (h : d.Ok) :
    d.succ.toOrdinal = d.toOrdinal + 1 := by
  obtain ⟨y, m, dd⟩ := d
  simp only [Day.Ok] at h
  obtain ⟨h1, h2, h3, h4⟩ := h
  simp only [Day.succ]
  split_ifs with hc1 hc2
  · simp only [Day.toOrdinal]; ring
  · have hs := daysBeforeMonth_step y m (by omega) (by omega)
    simp only [Day.toOrdinal]
    omega
  · have hm12 : m = 12 := by omega
    subst hm12
    have h12 := daysInMonth_twelve y
    have hy := daysBeforeYear_step y
    have hm334 := daysBeforeMonth_twelve y
    have hm0 := daysBeforeMonth_one (y + 1)
    simp only [Day.toOrdinal]
    omega

theorem Day.toOrdinal_succ_iter (d : Day) (h : d.Ok) (k : Nat) :
    (Day.succ^[k] d).toOrdinal = d.toOrdinal + k := by
  induction k with
  | zero => simp
  | succ k ih =>
    rw [Function.iterate_succ_apply']
    rw [Day.toOrdinal_succ _ (Day.succ_iter_ok d h k)]
    omega

theorem Day.toOrdinal_pred (d : Day) (h : d.Ok) :
    d.pred.toOrdinal = d.toOrdinal - 1 := by
  have h1 := Day.toOrdinal_succ d.pred (Day.pred_ok d h)
  rw [Day.succ_pred d h] at h1
  omega

theorem Day.toOrdinal_pred_iter (d : Day) (h : d.Ok) (k : Nat) :
    (Day.pred^[k] d).toOrdinal = d.toOrdinal - k := by
  induction k with
  | zero => simp
  | succ k ih =>
    rw [Function.iterate_succ_apply']
    rw [Day.toOrdinal_pred _ (Day.pred_iter_ok d h k)]
    omega

theorem Day.shift_ok (d : Day) (h : d.Ok) (n : Int) : (d.shift n).Ok := by
  unfold Day.shift
  split_ifs
  · exact Day.succ_iter_ok d h _
  · exact Day.pred_iter_ok d h _

theorem Day.toOrdinal_shift (d : Day) (h : d.Ok) (n : Int) :
    (d.shift n).toOrdinal = d.toOrdinal + n := by
  unfold Day.shift
  split_ifs with hn
  · rw [Day.toOrdinal_succ_iter d h]
    omega
  · rw [Day.toOrdinal_pred_iter d h]
    omega

theorem dayOfYear_bounds (y m dd : Int) (h1 : 1 ≤ m) (h2 : m ≤ 12)
    (h3 : 1 ≤ dd) (h4 : dd ≤ daysInMonth y m) :
    1 ≤ daysBeforeMonth y m + dd ∧
      daysBeforeMonth y m + dd ≤ 365 + (if isLeap y then 1 else 0) := by
  rcases Bool.eq_false_or_eq_true (isLeap y) with hl | hl <;>
    (interval_cases m <;> simp [daysBeforeMonth, daysInMonth, hl] at h4 ⊢ <;> omega)

theorem daysBeforeYear_mono (y z : Int) (h : y ≤ z) :
    daysBeforeYear y ≤ daysBeforeYear z := by
  have key : ∀ n : Int, y ≤ n → daysBeforeYear y ≤ daysBeforeYear n := by
    intro n
    refine Int.le_induction (m := y) (P := fun k => daysBeforeYear y ≤ daysBeforeYear k) ?_ ?_ n
    · omega
    · intro k hk ih
      have := daysBeforeYear_step k
      split_ifs at this <;> omega
  exact key z h

/-- Lexicographic order on date fields, the comparison performed by
Python's `date.__lt__` (and hence `Day.__lt__`). -/
def Day.lexLt (a b : Day) : Prop :=
  a.year < b.year ∨ (a.year = b.year ∧
    (a.month < b.month ∨ (a.month = b.month ∧ a.day < b.day)))

instance (a b : Day) : Decidable (a.lexLt b) := by unfold Day.lexLt; infer_instance

theorem Day.ltb_iff_lexLt (a b : Day) : a.ltb b = true ↔ a.lexLt b := by
  simp [Day.ltb, Day.lexLt]

theorem daysBeforeMonth_mono (y m n : Int) (h1 : 1 ≤ m) (h2 : m + 1 ≤ n) (h3 : n ≤ 12) :
    daysBeforeMonth y (m + 1) ≤ daysBeforeMonth y n := by
  have h4 : m ≤ 11 := by omega
  rcases Bool.eq_false_or_eq_true (isLeap y) with hl | hl <;>
    (interval_cases m <;> interval_cases n <;> simp [daysBeforeMonth, hl] <;> omega)

theorem Day.toOrdinal_lt_of_lexLt (a b : Day) (ha : a.Ok) (hb : b.Ok)
    (hlex : a.lexLt b) : a.toOrdinal < b.toOrdinal := by
  obtain ⟨y, m, dd⟩ := a
  obtain ⟨y', m', dd'⟩ := b
  simp only [Day.Ok] at ha hb
  obtain ⟨a1, a2, a3, a4⟩ := ha
  obtain ⟨b1, b2, b3, b4⟩ := hb
  simp only [Day.lexLt] at hlex
  simp only [Day.toOrdinal]
  rcases hlex with hy | ⟨hy, hrest⟩
  · -- strictly earlier year: bound the day-of-year on both sides
    have hda := dayOfYear_bounds y m dd a1 a2 a3 a4
    have hdb := dayOfYear_bounds y' m' dd' b1 b2 b3 b4
    have hstep := daysBeforeYear_step y
    have hmono := daysBeforeYear_mono (y + 1) y' (by omega)
    split_ifs at hstep hda <;> omega
  · subst hy
    rcases hrest with hm | ⟨hm, hd⟩
    · -- same year, strictly earlier month
      have hstep := daysBeforeMonth_step y m (by omega) (by omega)
      have hmono := daysBeforeMonth_mono y m m' (by omega) (by omega) (by omega)
      omega
    · subst hm
      omega

theorem Day.lexLt_trichotomy (a b : Day) : a.lexLt b ∨ a = b ∨ b.lexLt a := by
  obtain ⟨y, m, dd⟩ := a
  obtain ⟨y', m', dd'⟩ := b
  simp only [Day.lexLt, Day.mk.injEq]
  omega

theorem Day.lexLt_iff_toOrdinal (a b : Day) (ha : a.Ok) (hb : b.Ok) :
    a.lexLt b ↔ a.toOrdinal < b.toOrdinal := by
  constructor
  · exact Day.toOrdinal_lt_of_lexLt a b ha hb
  · intro hord
    rcases Day.lexLt_trichotomy a b with h | h | h
    · exact h
    · subst h; omega
    · have := Day.toOrdinal_lt_of_lexLt b a hb ha h
      omega

/-- Model of `yasched.timing.Time` and `yasched.timing.Moment`: both Python
classes wrap a naive `datetime.datetime` with the same field layout and the
same construction, comparison and add-seconds behaviour; they differ only in
`__add__` on a non-integer operand, modelled below by the separate
operations `Time.add_time` and `Moment.add_moment`. -/
structure Time where
  day : Day
  hour : Int
  minute : Int
  second : Int
deriving DecidableEq, Repr

/-- Field well-formedness of a datetime, without Python's year range. -/
def Time.Ok (t : Time) : Prop :=
  t.day.Ok ∧ 0 ≤ t.hour ∧ t.hour ≤ 23 ∧ 0 ≤ t.minute ∧ t.minute ≤ 59 ∧
    0 ≤ t.second ∧ t.second ≤ 59

instance (t : Time) : Decidable t.Ok := by unfold Time.Ok; infer_instance

/-- Validity check of `datetime.datetime.__init__` (hence of `Time.__init__`
and `Moment.__init__`, which raise `ValueError` otherwise). -/
def Time.Valid (t : Time) : Prop :=
  t.day.Valid ∧ 0 ≤ t.hour ∧ t.hour ≤ 23 ∧ 0 ≤ t.minute ∧ t.minute ≤ 59 ∧
    0 ≤ t.second ∧ t.second ≤ 59

instance (t : Time) : Decidable t.Valid := by unfold Time.Valid; infer_instance

theorem Time.Valid.ok {t : Time} (h : t.Valid) : t.Ok :=
  ⟨h.1.2.2, h.2⟩

/-- Construction of a `Time`/`Moment`, modelling their `__init__`: `some` on
valid fields, `none` where Python raises `ValueError`. -/
def Time.mk? (y mo d h mi s : Int) : Option Time :=
  if (Time.mk (Day.mk y mo d) h mi s).Valid then some (Time.mk (Day.mk y mo d) h mi s)
  else none

/-- Seconds into the day of the time-of-day fields. -/
def Time.sod (t : Time) : Int :=
  t.hour * 3600 + t.minute * 60 + t.second

/-- Model of `Time.__add__` / `Moment.__add__` with an `int` operand:
`self._datetime + timedelta(seconds=s)`, carrying across day boundaries on
the proleptic Gregorian calendar. -/
def Time.add_seconds (t : Time) (s : Int) : Time :=
  ⟨t.day.shift ((t.sod + s) / 86400), ((t.sod + s) % 86400) / 3600,
   (((t.sod + s) % 86400) % 3600) / 60, ((t.sod + s) % 86400) % 60⟩

/-- Model of `datetime.timestamp()` with the local timezone fixed to UTC:
seconds since 1970-01-01 00:00:00 of the naive field values. -/
def Time.timestamp (t : Time) : Int :=
  86400 * t.day.epochDay + t.sod

/-- Model of `Time.__add__` with a `Time` operand:
`datetime.fromtimestamp(int(self.timestamp()) + int(other.timestamp()))`,
i.e. (under UTC) `self` advanced by `other.timestamp()` seconds. -/
def Time.add_time (t other : Time) : Time :=
  t.add_seconds other.timestamp

/-- Decoding of a `Moment` operand as a naive duration, exactly as coded in
`Moment.__add__`: days = (year-1970)*365 + (month-1)*30 + (day-1), total
seconds = days*86400 + hour*3600 + minute*60 + second. -/
def Moment.durationSeconds (m : Time) : Int :=
  ((m.day.year - 1970) * 365 + (m.day.month - 1) * 30 + (m.day.day - 1)) * 86400
    + m.hour * 3600 + m.minute * 60 + m.second

/-- Model of `Moment.__add__` with a `Moment` operand: decode the operand as
a naive duration and add that many seconds. -/
def Moment.add_moment (t other : Time) : Time :=
  t.add_seconds (Moment.durationSeconds other)

/-- Lexicographic comparison of datetime fields, the comparison performed by
Python's `datetime.__lt__` (hence `Time.__lt__` / `Moment.__lt__`). -/
def Time.lexLt (a b : Time) : Prop :=
  a.day.lexLt b.day ∨ (a.day = b.day ∧
    (a.hour < b.hour ∨ (a.hour = b.hour ∧
      (a.minute < b.minute ∨ (a.minute = b.minute ∧ a.second < b.second)))))

instance (a b : Time) : Decidable (a.lexLt b) := by unfold Time.lexLt; infer_instance

/-- Boolean form of `Time.lexLt`, as used in code branches. -/
def Time.ltb (a b : Time) : Bool :=
  decide (a.lexLt b)

theorem Time.sod_bounds (t : Time) (h : t.Ok) : 0 ≤ t.sod ∧ t.sod ≤ 86399 := by
  obtain ⟨hd, h1, h2, h3, h4, h5, h6⟩ := h
  unfold Time.sod
  omega

theorem Time.add_seconds_ok (t : Time) (h : t.Ok) (s : Int) : (t.add_seconds s).Ok := by
  have hd := Day.shift_ok t.day h.1 ((t.sod + s) / 86400)
  obtain ⟨h0, h1, h2, h3, h4, h5, h6⟩ := h
  refine ⟨hd, ?_, ?_, ?_, ?_, ?_, ?_⟩ <;> simp only [Time.add_seconds] <;> omega

theorem Time.timestamp_add_seconds (t : Time) (h : t.Ok) (s : Int) :
    (t.add_seconds s).timestamp = t.timestamp + s := by
  have hday := Day.toOrdinal_shift t.day h.1 ((t.sod + s) / 86400)
  simp only [Time.add_seconds, Time.timestamp, Day.epochDay, Time.sod] at *
  omega

theorem Day.lexLt_irrefl (d : Day) : ¬ d.lexLt d := by
  simp only [Day.lexLt]
  omega

theorem Time.lexLt_iff_timestamp (a b : Time) (ha : a.Ok) (hb : b.Ok) :
    a.lexLt b ↔ a.timestamp < b.timestamp := by
  have hsa := Time.sod_bounds a ha
  have hsb := Time.sod_bounds b hb
  constructor
  · intro hlex
    rcases hlex with hd | ⟨hd, hrest⟩
    · have := Day.toOrdinal_lt_of_lexLt a.day b.day ha.1 hb.1 hd
      simp only [Time.timestamp, Day.epochDay] at *
      omega
    · simp only [Time.timestamp, Day.epochDay, hd]
      simp only [Time.sod] at *
      obtain ⟨_, a1, a2, a3, a4, a5, a6⟩ := ha
      obtain ⟨_, b1, b2, b3, b4, b5, b6⟩ := hb
      omega
  · intro hts
    rcases Day.lexLt_trichotomy a.day b.day with hd | hd | hd
    · exact Or.inl hd
    · right
      refine ⟨hd, ?_⟩
      simp only [Time.timestamp, Day.epochDay, hd] at hts
      simp only [Time.sod] at *
      obtain ⟨_, a1, a2, a3, a4, a5, a6⟩ := ha
      obtain ⟨_, b1, b2, b3, b4, b5, b6⟩ := hb
      omega
    · exfalso
      have := Day.toOrdinal_lt_of_lexLt b.day a.day hb.1 ha.1 hd
      simp only [Time.timestamp, Day.epochDay] at hts
      omega

theorem Time.ltb_iff_timestamp (a b : Time) (ha : a.Ok) (hb : b.Ok) :
    a.ltb b = true ↔ a.timestamp < b.timestamp := by
  rw [Time.ltb, decide_eq_true_iff]
  exact Time.lexLt_iff_timestamp a b ha hb

/-- Model of `yasched.timing.TimeSlot`: a start and an end `Time`.  The
Python attribute `end` is a reserved word in Lean and is rendered `«end»`. -/
structure TimeSlot where
  start : Time
  «end» : Time
deriving DecidableEq, Repr

/-- Model of `yasched.timing.Periodic`: a first occurrence slot, a final
boundary slot, and the list of repetition offsets (each a `Time` used as a
duration). -/
structure Periodic where
  start : TimeSlot
  «end» : TimeSlot
  repetitions : List Time
deriving DecidableEq, Repr

/-- Model of `Periodic.from_daily`: the repetition offset is encoded as the
calendar datetime `Time(1970, 1, 1 + interval_days)`, whose construction
raises `ValueError` (here: `none`) when `1 + interval_days` is not a valid
January day-of-month. -/
def Periodic.from_daily (s e : TimeSlot) (interval_days : Int) : Option Periodic :=
  (Time.mk? 1970 1 (1 + interval_days) 0 0 0).map fun rep => ⟨s, e, [rep]⟩

/-- Model of `Periodic.from_weekly`: offset encoded as
`Time(1970, 1, 1 + interval_weeks * 7)`. -/
def Periodic.from_weekly (s e : TimeSlot) (interval_weeks : Int) : Option Periodic :=
  (Time.mk? 1970 1 (1 + interval_weeks * 7) 0 0 0).map fun rep => ⟨s, e, [rep]⟩

/-- One pass of the inner `for rep in self.repetitions` loop of
`Periodic.get_occurrences`: apply each offset in order to the running
start/end, returning early (`Sum.inl`, the collected occurrences) as soon as
the new start exceeds the boundary, otherwise appending the new slot. -/
def applyPass (bnd : Time) : List Time → Time → Time → List TimeSlot →
    (List TimeSlot) ⊕ (List TimeSlot × Time × Time)
  | [], cs, ce, acc => Sum.inr (acc, cs, ce)
  | r :: rest, cs, ce, acc =>
    if bnd.ltb (cs.add_time r) then Sum.inl acc
    else applyPass bnd rest (cs.add_time r) (ce.add_time r)
        (acc ++ [⟨cs.add_time r, ce.add_time r⟩])

/-- The outer `while True` loop of `Periodic.get_occurrences`, with explicit
fuel counting loop iterations; `none` means the fuel ran out (the Python
loop would still be running). -/
def occLoop (bnd : Time) (reps : List Time) : Nat → Time → Time → List TimeSlot →
    Option (List TimeSlot)
  | 0, _, _, _ => none
  | fuel + 1, cs, ce, acc =>
    match applyPass bnd reps cs ce acc with
    | Sum.inl done => some done
    | Sum.inr (acc', cs', ce') => occLoop bnd reps fuel cs' ce' acc'

/-- Model of `Periodic.get_occurrences`: seed the accumulator with the first
occurrence, then loop. -/
def Periodic.get_occurrences (p : Periodic) (fuel : Nat) : Option (List TimeSlot) :=
  occLoop p.«end».start p.repetitions fuel p.start.start p.start.«end»
    [⟨p.start.start, p.start.«end»⟩]

/-- Occurrence enumeration as the specification (§4.2) words it: starting
from the first occurrence, repeatedly apply each configured offset, in the
order given, to the running start/end instants; after each application, if
the new start exceeds the boundary start, stop (excluding that occurrence),
otherwise append it.  The offset stream cycles through the configured
offsets; fuel counts single offset applications. -/
def specOccAux (bnd : Time) (orig : List Time) : Nat → List Time → Time → Time →
    List TimeSlot → Option (List TimeSlot)
  | 0, _, _, _, _ => none
  | fuel + 1, pend, cs, ce, acc =>
    match (if pend.isEmpty then orig else pend) with
    | [] => none
    | r :: rest =>
      if bnd.ltb (cs.add_time r) then some acc
      else specOccAux bnd orig fuel rest (cs.add_time r) (ce.add_time r)
          (acc ++ [⟨cs.add_time r, ce.add_time r⟩])

/-- Specification-side enumeration of a `Periodic` (see `specOccAux`). -/
def specOccurrences (p : Periodic) (fuel : Nat) : Option (List TimeSlot) :=
  specOccAux p.«end».start p.repetitions fuel p.repetitions p.start.start
    p.start.«end» [⟨p.start.start, p.start.«end»⟩]

theorem applyPass_inl_of_exceeds (bnd : Time) (r : Time) (rest : List Time)
    (cs ce : Time) (acc : List TimeSlot) (hcs : cs.Ok) (hbnd : bnd.Ok)
    (hgt : bnd.timestamp < cs.timestamp + r.timestamp) :
    applyPass bnd (r :: rest) cs ce acc = Sum.inl acc := by
  have hok : (cs.add_time r).Ok := Time.add_seconds_ok cs hcs r.timestamp
  have hts : (cs.add_time r).timestamp = cs.timestamp + r.timestamp :=
    Time.timestamp_add_seconds cs hcs r.timestamp
  have hlt : bnd.ltb (cs.add_time r) = true := by
    rw [Time.ltb_iff_timestamp bnd (cs.add_time r) hbnd hok]
    omega
  simp only [applyPass, hlt, if_pos]

theorem applyPass_progress (bnd : Time) (reps : List Time) (cs ce : Time)
    (acc : List TimeSlot) (hcs : cs.Ok)
    (hadv : ∀ r ∈ reps, 0 < r.timestamp) :
    (∃ done, applyPass bnd reps cs ce acc = Sum.inl done) ∨
      (∃ acc2 cs2 ce2, applyPass bnd reps cs ce acc = Sum.inr (acc2, cs2, ce2) ∧
        cs2.Ok ∧ cs.timestamp + reps.length ≤ cs2.timestamp) := by
  induction reps generalizing cs ce acc with
  | nil =>
    right
    exact ⟨acc, cs, ce, rfl, hcs, by simp⟩
  | cons r rest ih =>
    have hok : (cs.add_time r).Ok := Time.add_seconds_ok cs hcs r.timestamp
    have hts : (cs.add_time r).timestamp = cs.timestamp + r.timestamp :=
      Time.timestamp_add_seconds cs hcs r.timestamp
    have hr : 0 < r.timestamp := hadv r (by simp)
    simp only [applyPass]
    by_cases hlt : bnd.ltb (cs.add_time r) = true
    · rw [if_pos hlt]
      exact Or.inl ⟨acc, rfl⟩
    · rw [if_neg hlt]
      rcases ih (cs.add_time r) (ce.add_time r) (acc ++ [⟨cs.add_time r, ce.add_time r⟩])
          hok (fun x hx => hadv x (by simp [hx])) with
        ⟨done, hdone⟩ | ⟨acc2, cs2, ce2, heq, hok2, hle⟩
      · exact Or.inl ⟨done, hdone⟩
      · refine Or.inr ⟨acc2, cs2, ce2, heq, hok2, ?_⟩
        simp only [List.length_cons]
        omega

theorem occLoop_terminates (bnd : Time) (reps : List Time) (hbnd : bnd.Ok)
    (hne : reps ≠ []) (hadv : ∀ r ∈ reps, 0 < r.timestamp) :
    ∀ fuel cs ce acc, cs.Ok → (bnd.timestamp + 1 - cs.timestamp).toNat < fuel →
      (occLoop bnd reps fuel cs ce acc).isSome := by
  intro fuel
  induction fuel with
  | zero => intro cs ce acc _ hlt; omega
  | succ f ih =>
    intro cs ce acc hcs hlt
    by_cases hgt : bnd.timestamp < cs.timestamp
    · obtain ⟨r, rest, rfl⟩ := List.exists_cons_of_ne_nil hne
      have hr : 0 < r.timestamp := hadv r (by simp)
      have h1 := applyPass_inl_of_exceeds bnd r rest cs ce acc hcs hbnd (by omega)
      simp only [occLoop, h1]
      rfl
    · rcases applyPass_progress bnd reps cs ce acc hcs hadv with
        ⟨done, hdone⟩ | ⟨acc2, cs2, ce2, heq, hok2, hle⟩
      · simp only [occLoop, hdone]
        rfl
      · simp only [occLoop, heq]
        apply ih cs2 ce2 acc2 hok2
        have hlen : 1 ≤ reps.length := by
          cases reps with
          | nil => exact absurd rfl hne
          | cons a l => simp
        omega

theorem specOccAux_mono (bnd : Time) (orig : List Time) :
    ∀ f pend cs ce acc l, specOccAux bnd orig f pend cs ce acc = some l →
      specOccAux bnd orig (f + 1) pend cs ce acc = some l := by
  intro f
  induction f with
  | zero => intro pend cs ce acc l h; simp [specOccAux] at h
  | succ f ih =>
    intro pend cs ce acc l h
    rw [specOccAux] at h
    rw [specOccAux]
    rcases hm : (if pend.isEmpty then orig else pend) with _ | ⟨r, rest⟩
    · rw [hm] at h; exact absurd h (by simp)
    · rw [hm] at h
      dsimp only at h ⊢
      by_cases hlt : bnd.ltb (cs.add_time r) = true
      · rw [if_pos hlt] at h ⊢; exact h
      · rw [if_neg hlt] at h ⊢
        exact ih rest _ _ _ l h

theorem specOccAux_mono_le (bnd : Time) (orig : List Time) (f g : Nat) (hfg : f ≤ g) :
    ∀ pend cs ce acc l, specOccAux bnd orig f pend cs ce acc = some l →
      specOccAux bnd orig g pend cs ce acc = some l := by
  induction g with
  | zero =>
    intro pend cs ce acc l h
    have : f = 0 := by omega
    subst this
    exact h
  | succ g ih =>
    intro pend cs ce acc l h
    by_cases hfe : f = g + 1
    · subst hfe; exact h
    · exact specOccAux_mono bnd orig g pend cs ce acc l (ih (by omega) pend cs ce acc l h)

theorem occLoop_mono (bnd : Time) (reps : List Time) :
    ∀ f cs ce acc l, occLoop bnd reps f cs ce acc = some l →
      occLoop bnd reps (f + 1) cs ce acc = some l := by
  intro f
  induction f with
  | zero => intro cs ce acc l h; simp [occLoop] at h
  | succ f ih =>
    intro cs ce acc l h
    rw [occLoop] at h
    rw [occLoop]
    rcases hp : applyPass bnd reps cs ce acc with done | ⟨acc2, cs2, ce2⟩
    · rw [hp] at h; exact h
    · rw [hp] at h
      exact ih cs2 ce2 acc2 l h

theorem occLoop_mono_le (bnd : Time) (reps : List Time) (f g : Nat) (hfg : f ≤ g) :
    ∀ cs ce acc l, occLoop bnd reps f cs ce acc = some l →
      occLoop bnd reps g cs ce acc = some l := by
  induction g with
  | zero =>
    intro cs ce acc l h
    have : f = 0 := by omega
    subst this
    exact h
  | succ g ih =>
    intro cs ce acc l h
    by_cases hfe : f = g + 1
    · subst hfe; exact h
    · exact occLoop_mono bnd reps g cs ce acc l (ih (by omega) cs ce acc l h)

theorem specOccAux_of_applyPass_inl (bnd : Time) (orig : List Time) :
    ∀ pend cs ce acc done, applyPass bnd pend cs ce acc = Sum.inl done →
      specOccAux bnd orig (pend.length + 1) pend cs ce acc = some done := by
  intro pend
  induction pend with
  | nil => intro cs ce acc done h; simp [applyPass] at h
  | cons r rest ih =>
    intro cs ce acc done h
    rw [applyPass] at h
    rw [specOccAux]
    have hne : (if (r :: rest : List Time).isEmpty then orig else r :: rest) = r :: rest := by
      simp
    rw [hne]
    dsimp only
    by_cases hlt : bnd.ltb (cs.add_time r) = true
    · rw [if_pos hlt] at h ⊢
      simp only [Sum.inl.injEq] at h
      rw [h]
    · rw [if_neg hlt] at h ⊢
      exact ih _ _ _ done h

theorem specOccAux_of_applyPass_inr (bnd : Time) (orig : List Time) :
    ∀ pend cs ce acc acc2 cs2 ce2,
      applyPass bnd pend cs ce acc = Sum.inr (acc2, cs2, ce2) → ∀ g,
      specOccAux bnd orig (pend.length + g) pend cs ce acc =
        specOccAux bnd orig g [] cs2 ce2 acc2 := by
  intro pend
  induction pend with
  | nil =>
    intro cs ce acc acc2 cs2 ce2 h g
    rw [applyPass] at h
    simp only [Sum.inr.injEq, Prod.mk.injEq] at h
    obtain ⟨h1, h2, h3⟩ := h
    subst h1; subst h2; subst h3
    simp
  | cons r rest ih =>
    intro cs ce acc acc2 cs2 ce2 h g
    rw [applyPass] at h
    by_cases hlt : bnd.ltb (cs.add_time r) = true
    · rw [if_pos hlt] at h; simp at h
    · rw [if_neg hlt] at h
      have hlen : (r :: rest : List Time).length + g = (rest.length + g) + 1 := by
        simp; omega
      rw [hlen, specOccAux]
      have hne : (if (r :: rest : List Time).isEmpty then orig else r :: rest) = r :: rest := by
        simp
      rw [hne]
      dsimp only
      rw [if_neg hlt]
      exact ih _ _ _ acc2 cs2 ce2 h g

theorem specOccAux_refill (bnd : Time) (orig : List Time) :
    ∀ f cs ce acc, specOccAux bnd orig f [] cs ce acc =
      specOccAux bnd orig f orig cs ce acc := by
  intro f cs ce acc
  cases f with
  | zero => rfl
  | succ f =>
    rw [specOccAux, specOccAux]
    have h1 : (if ([] : List Time).isEmpty then orig else []) = orig := by simp
    have h2 : (if orig.isEmpty then orig else orig) = orig := by
      split <;> rfl
    rw [h1, h2]

theorem occLoop_refines_spec (bnd : Time) (reps : List Time) :
    ∀ f cs ce acc l, occLoop bnd reps f cs ce acc = some l →
      ∃ g, specOccAux bnd reps g reps cs ce acc = some l := by
  intro f
  induction f with
  | zero => intro cs ce acc l h; simp [occLoop] at h
  | succ f ih =>
    intro cs ce acc l h
    rw [occLoop] at h
    rcases hp : applyPass bnd reps cs ce acc with done | ⟨⟨acc2, cs2, ce2⟩⟩
    · rw [hp] at h
      simp only [Option.some.injEq] at h
      refine ⟨reps.length + 1, ?_⟩
      rw [← h]
      exact specOccAux_of_applyPass_inl bnd reps reps cs ce acc done hp
    · rw [hp] at h
      obtain ⟨g, hg⟩ := ih cs2 ce2 acc2 l h
      refine ⟨reps.length + g, ?_⟩
      rw [specOccAux_of_applyPass_inr bnd reps reps cs ce acc acc2 cs2 ce2 hp g]
      rw [specOccAux_refill]
      exact hg

theorem Time.Valid.okOf {t : Time} (h : t.Valid) : t.Ok := h.ok

/-- An offset with positive timestamp strictly advances every well-formed
instant under `Time.__add__`. -/
theorem Time.advances_of_timestamp_pos (r : Time) (hr : 0 < r.timestamp)
    (t : Time) (ht : t.Ok) : t.lexLt (t.add_time r) := by
  have hok : (t.add_time r).Ok := Time.add_seconds_ok t ht r.timestamp
  have hts : (t.add_time r).timestamp = t.timestamp + r.timestamp :=
    Time.timestamp_add_seconds t ht r.timestamp
  rw [Time.lexLt_iff_timestamp t (t.add_time r) ht hok, hts]
  omega

/-- Conversely, an offset that strictly advances every well-formed instant
has positive timestamp. -/
theorem Time.timestamp_pos_of_advances (r : Time)
    (h : ∀ t : Time, t.Ok → t.lexLt (t.add_time r)) : 0 < r.timestamp := by
  have he : (Time.mk (Day.mk 1970 1 1) 0 0 0).Ok := by decide
  have h2 := h _ he
  have hok : ((Time.mk (Day.mk 1970 1 1) 0 0 0).add_time r).Ok :=
    Time.add_seconds_ok _ he r.timestamp
  have hts : ((Time.mk (Day.mk 1970 1 1) 0 0 0).add_time r).timestamp =
      (Time.mk (Day.mk 1970 1 1) 0 0 0).timestamp + r.timestamp :=
    Time.timestamp_add_seconds _ he r.timestamp
  rw [Time.lexLt_iff_timestamp _ _ he hok, hts] at h2
  omega

/-- First occurrence slot of the §8 scenario: 2025-01-01 09:00-10:00. -/
def slotJan1 : TimeSlot := ⟨⟨⟨2025, 1, 1⟩, 9, 0, 0⟩, ⟨⟨2025, 1, 1⟩, 10, 0, 0⟩⟩

/-- Expected middle occurrence of the scenario: 2025-01-03 09:00-10:00. -/
def slotJan3 : TimeSlot := ⟨⟨⟨2025, 1, 3⟩, 9, 0, 0⟩, ⟨⟨2025, 1, 3⟩, 10, 0, 0⟩⟩

/-- Boundary slot of the scenario: 2025-01-05 09:00-10:00. -/
def slotJan5 : TimeSlot := ⟨⟨⟨2025, 1, 5⟩, 9, 0, 0⟩, ⟨⟨2025, 1, 5⟩, 10, 0, 0⟩⟩

/-- C9: for every valid calendar date `d` and every integer `n`,
`d.add_days(n).add_days(-n) = d` — adding `n` days and then subtracting `n`
days is the identity on `Day`. -/
theorem C9_add_days_roundtrip (d : Day) (n : Int) (h : d.Valid) :
    (d.add_days n).add_days (-n) = d :=
  Day.shift_shift_neg d h.2.2 n

/-- Witness for C9 at the concrete date 2025-10-24 and n = 7. -/
theorem C9_add_days_roundtrip_witness :
    (Day.mk 2025 10 24).Valid ∧
      ((Day.mk 2025 10 24).add_days 7).add_days (-7) = Day.mk 2025 10 24 :=
  ⟨by decide, C9_add_days_roundtrip (Day.mk 2025 10 24) 7 (by decide)⟩

/-- C10: the daily and weekly construction helpers are partial:
`Periodic.from_daily` encodes the offset as `Time(1970, 1, 1 + interval_days)`
so it raises `ValueError` (modelled `none`) for every `interval_days ≥ 31`,
and `Periodic.from_weekly` raises for every `interval_weeks ≥ 5`; for smaller
positive intervals both succeed. -/
theorem C10_from_daily_weekly_partiality (s e : TimeSlot) (n k : Int) :
    (31 ≤ n → Periodic.from_daily s e n = none) ∧
      (1 ≤ n → n ≤ 30 →
        Periodic.from_daily s e n = some ⟨s, e, [⟨⟨1970, 1, 1 + n⟩, 0, 0, 0⟩]⟩) ∧
      (5 ≤ k → Periodic.from_weekly s e k = none) ∧
      (1 ≤ k → k ≤ 4 →
        Periodic.from_weekly s e k = some ⟨s, e, [⟨⟨1970, 1, 1 + k * 7⟩, 0, 0, 0⟩]⟩) := by
  have hdim : daysInMonth 1970 1 = 31 := by decide
  have hval : ∀ dd : Int, (Time.mk (Day.mk 1970 1 dd) 0 0 0).Valid ↔ (1 ≤ dd ∧ dd ≤ 31) := by
    intro dd
    simp only [Time.Valid, Day.Valid, Day.Ok, hdim]
    constructor
    · intro h; omega
    · intro h; omega
  refine ⟨?_, ?_, ?_, ?_⟩
  · intro hn
    unfold Periodic.from_daily Time.mk?
    rw [if_neg]
    · rfl
    · rw [hval]; omega
  · intro hn1 hn2
    unfold Periodic.from_daily Time.mk?
    rw [if_pos]
    · rfl
    · rw [hval]; omega
  · intro hk
    unfold Periodic.from_weekly Time.mk?
    rw [if_neg]
    · rfl
    · rw [hval]; omega
  · intro hk1 hk2
    unfold Periodic.from_weekly Time.mk?
    rw [if_pos]
    · rfl
    · rw [hval]; omega

/-- Witness for C10: daily interval 31 fails and 1 succeeds; weekly interval
5 fails and 1 succeeds, at concrete slots. -/
theorem C10_from_daily_weekly_partiality_witness :
    Periodic.from_daily slotJan1 slotJan5 31 = none ∧
      Periodic.from_daily slotJan1 slotJan5 1 =
        some ⟨slotJan1, slotJan5, [⟨⟨1970, 1, 2⟩, 0, 0, 0⟩]⟩ ∧
      Periodic.from_weekly slotJan1 slotJan5 5 = none ∧
      Periodic.from_weekly slotJan1 slotJan5 1 =
        some ⟨slotJan1, slotJan5, [⟨⟨1970, 1, 8⟩, 0, 0, 0⟩]⟩ :=
  ⟨(C10_from_daily_weekly_partiality slotJan1 slotJan5 31 5).1 (by norm_num),
   (C10_from_daily_weekly_partiality slotJan1 slotJan5 1 1).2.1 (by norm_num) (by norm_num),
   (C10_from_daily_weekly_partiality slotJan1 slotJan5 1 5).2.2.1 (by norm_num),
   (C10_from_daily_weekly_partiality slotJan1 slotJan5 1 1).2.2.2 (by norm_num) (by norm_num)⟩

set_option maxRecDepth 10000 in
/-- C2 counterexample: the claimed naive-duration decoding does not describe
`Time.__add__`.  For t = 2025-01-01 00:00:00 and d = 1970-02-01 00:00:00 the
naive decoding gives 30 days (months decoded as 30 days) while `Time.__add__`
adds the operand's Unix timestamp, 31 actual January days, so the results
differ (2025-02-01 vs 2025-01-31). -/
theorem C2_time_add_counterexample :
    ¬ (Time.add_time ⟨⟨2025, 1, 1⟩, 0, 0, 0⟩ ⟨⟨1970, 2, 1⟩, 0, 0, 0⟩ =
        Time.add_seconds ⟨⟨2025, 1, 1⟩, 0, 0, 0⟩
          (Moment.durationSeconds ⟨⟨1970, 2, 1⟩, 0, 0, 0⟩)) := by
  decide

/-- C2 amended: `Moment.__add__` with a `Moment` operand advances the left
operand by exactly the naive duration-seconds (days = (year-1970)*365 +
(month-1)*30 + (day-1), seconds = days*86400 + hour*3600 + minute*60 +
second); `Time.__add__` with a `Time` operand instead advances the left
operand by the operand's Unix-timestamp seconds (actual Gregorian days since
1970-01-01), which differs from the naive decoding. -/
theorem C2_add_duration_semantics :
    (∀ t d : Time, Moment.add_moment t d = Time.add_seconds t (Moment.durationSeconds d)) ∧
      (∀ t d : Time, t.Ok →
        (Moment.add_moment t d).timestamp = t.timestamp + Moment.durationSeconds d) ∧
      (∀ t d : Time, Time.add_time t d = Time.add_seconds t d.timestamp) ∧
      (∀ t d : Time, t.Ok →
        (Time.add_time t d).timestamp = t.timestamp + d.timestamp) :=
  ⟨fun _ _ => rfl,
   fun t d ht => Time.timestamp_add_seconds t ht (Moment.durationSeconds d),
   fun _ _ => rfl,
   fun t d ht => Time.timestamp_add_seconds t ht d.timestamp⟩

set_option maxRecDepth 10000 in
/-- Witness for C2 (amended) at t = 2025-01-01 09:00:00, d = 1970-01-03. -/
theorem C2_add_duration_semantics_witness :
    (Time.mk ⟨2025, 1, 1⟩ 9 0 0).Ok ∧
      (Moment.add_moment ⟨⟨2025, 1, 1⟩, 9, 0, 0⟩ ⟨⟨1970, 1, 3⟩, 0, 0, 0⟩).timestamp =
        (Time.mk ⟨2025, 1, 1⟩ 9 0 0).timestamp +
          Moment.durationSeconds ⟨⟨1970, 1, 3⟩, 0, 0, 0⟩ ∧
      (Time.add_time ⟨⟨2025, 1, 1⟩, 9, 0, 0⟩ ⟨⟨1970, 1, 3⟩, 0, 0, 0⟩).timestamp =
        (Time.mk ⟨2025, 1, 1⟩ 9 0 0).timestamp +
          (Time.mk ⟨1970, 1, 3⟩ 0 0 0).timestamp :=
  ⟨by decide,
   C2_add_duration_semantics.2.1 ⟨⟨2025, 1, 1⟩, 9, 0, 0⟩ ⟨⟨1970, 1, 3⟩, 0, 0, 0⟩ (by decide),
   C2_add_duration_semantics.2.2.2 ⟨⟨2025, 1, 1⟩, 9, 0, 0⟩ ⟨⟨1970, 1, 3⟩, 0, 0, 0⟩ (by decide)⟩

set_option maxRecDepth 10000 in
/-- C3: the occurrence enumeration of `Periodic.get_occurrences` follows the
specification's description — start with the first occurrence, repeatedly
apply each configured offset in order to the running start/end, stop
(excluding) as soon as the new start exceeds the boundary start — and on the
§8 scenario (every 2 days, start 2025-01-01 09:00-10:00, boundary
2025-01-05 09:00-10:00) it yields exactly the occurrences of Jan 1, Jan 3
and Jan 5. -/
theorem C3_occurrence_enumeration :
    (∀ (p : Periodic) (f : Nat) (l : List TimeSlot),
        p.get_occurrences f = some l → ∃ g, specOccurrences p g = some l) ∧
      Periodic.from_daily slotJan1 slotJan5 2 =
        some ⟨slotJan1, slotJan5, [⟨⟨1970, 1, 3⟩, 0, 0, 0⟩]⟩ ∧
      (Periodic.mk slotJan1 slotJan5 [⟨⟨1970, 1, 3⟩, 0, 0, 0⟩]).get_occurrences 3 =
        some [slotJan1, slotJan3, slotJan5] := by
  refine ⟨?_, by decide, by decide⟩
  intro p f l h
  exact occLoop_refines_spec p.«end».start p.repetitions f p.start.start p.start.«end»
    [⟨p.start.start, p.start.«end»⟩] l h

set_option maxRecDepth 10000 in
/-- Witness for C3: the scenario run is itself a run of the
specification-side enumeration. -/
theorem C3_occurrence_enumeration_witness :
    ∃ g, specOccurrences (Periodic.mk slotJan1 slotJan5 [⟨⟨1970, 1, 3⟩, 0, 0, 0⟩]) g =
      some [slotJan1, slotJan3, slotJan5] :=
  C3_occurrence_enumeration.1 (Periodic.mk slotJan1 slotJan5 [⟨⟨1970, 1, 3⟩, 0, 0, 0⟩]) 3
    [slotJan1, slotJan3, slotJan5] (by decide)

/-- C7: for every `Periodic` with non-empty offsets each of which strictly
advances every well-formed instant (forward progress), and well-formed first
and boundary start instants, the enumeration terminates: some fuel makes the
loop return a finite list of occurrences. -/
theorem C7_enumeration_terminates (p : Periodic) (hne : p.repetitions ≠ [])
    (hadv : ∀ r ∈ p.repetitions, ∀ t : Time, t.Ok → t.lexLt (t.add_time r))
    (hcs : p.start.start.Ok) (hbnd : p.«end».start.Ok) :
    ∃ fuel l, p.get_occurrences fuel = some l := by
  have hadv2 : ∀ r ∈ p.repetitions, 0 < r.timestamp :=
    fun r hr => Time.timestamp_pos_of_advances r (hadv r hr)
  have h := occLoop_terminates p.«end».start p.repetitions hbnd hne hadv2
    ((p.«end».start.timestamp + 1 - p.start.start.timestamp).toNat + 1)
    p.start.start p.start.«end» [⟨p.start.start, p.start.«end»⟩] hcs (by omega)
  obtain ⟨l, hl⟩ := Option.isSome_iff_exists.mp h
  exact ⟨(p.«end».start.timestamp + 1 - p.start.start.timestamp).toNat + 1, l, hl⟩

set_option maxRecDepth 10000 in
/-- Witness for C7 on the §8 scenario periodic. -/
theorem C7_enumeration_terminates_witness :
    ∃ fuel l,
      (Periodic.mk slotJan1 slotJan5 [⟨⟨1970, 1, 3⟩, 0, 0, 0⟩]).get_occurrences fuel =
        some l :=
  C7_enumeration_terminates (Periodic.mk slotJan1 slotJan5 [⟨⟨1970, 1, 3⟩, 0, 0, 0⟩])
    (by decide)
    (by
      intro r hr t ht
      have : r = ⟨⟨1970, 1, 3⟩, 0, 0, 0⟩ := by
        simpa using hr
      subst this
      exact Time.advances_of_timestamp_pos _ (by decide) t ht)
    (by decide) (by decide)

/-- C8: a `Periodic` whose first occurrence start equals the boundary start
(with the invariant hypotheses: non-empty, forward-advancing offsets and a
well-formed start) yields exactly one occurrence, the first occurrence
itself, for every positive fuel. -/
theorem C8_equal_boundary_single_occurrence (p : Periodic)
    (heq : p.start.start = p.«end».start) (hne : p.repetitions ≠ [])
    (hadv : ∀ r ∈ p.repetitions, ∀ t : Time, t.Ok → t.lexLt (t.add_time r))
    (hok : p.start.start.Ok) :
    ∀ fuel, 1 ≤ fuel → p.get_occurrences fuel = some [p.start] := by
  intro fuel hfuel
  obtain ⟨f, rfl⟩ : ∃ f, fuel = f + 1 := ⟨fuel - 1, by omega⟩
  obtain ⟨r, rest, hr⟩ := List.exists_cons_of_ne_nil hne
  have hrts : 0 < r.timestamp :=
    Time.timestamp_pos_of_advances r (hadv r (by rw [hr]; simp))
  have hbnd : p.«end».start.Ok := heq ▸ hok
  have hts : p.«end».start.timestamp = p.start.start.timestamp := by rw [← heq]
  have hpass := applyPass_inl_of_exceeds p.«end».start r rest p.start.start
    p.start.«end» [⟨p.start.start, p.start.«end»⟩] hok hbnd (by omega)
  unfold Periodic.get_occurrences
  rw [hr]
  simp only [occLoop, hpass]

set_option maxRecDepth 10000 in
/-- Witness for C8: a periodic slot whose boundary equals its start yields
exactly the single first occurrence. -/
theorem C8_equal_boundary_single_occurrence_witness :
    (Periodic.mk slotJan1 slotJan1 [⟨⟨1970, 1, 3⟩, 0, 0, 0⟩]).get_occurrences 1 =
      some [slotJan1] :=
  C8_equal_boundary_single_occurrence
    (Periodic.mk slotJan1 slotJan1 [⟨⟨1970, 1, 3⟩, 0, 0, 0⟩]) rfl (by decide)
    (by
      intro r hr t ht
      have : r = ⟨⟨1970, 1, 3⟩, 0, 0, 0⟩ := by
        simpa using hr
      subst this
      exact Time.advances_of_timestamp_pos _ (by decide) t ht)
    (by decide) 1 (by norm_num)

/-- Outcome of invoking a task's bound action with its stored parameters
(`self.action(**self.parameters)` in `Task.execute`): the call either
returns, or raises an exception with a message. -/
inductive ActionResult
  | ok
  | raises (msg : String)
deriving DecidableEq, Repr

/-- Model of `yasched.scheduler.Task`: registration data plus the mutable
execution statistics `run_count` and `last_run`.  The bound action is
abstracted by its outcome; `last_run` stores the poll timestamp
(`datetime.now()` is passed in as `now`). -/
structure Task where
  name : String
  schedule_spec : String
  action : ActionResult
  enabled : Bool
  run_count : Nat
  last_run : Option Int
deriving DecidableEq, Repr

/-- Model of `Task.__init__`: `run_count = 0`, `last_run = None`. -/
def Task.init (name spec : String) (action : ActionResult) (enabled : Bool) : Task :=
  ⟨name, spec, action, enabled, 0, none⟩

/-- The body of the `try` block of `Task.execute`: call the action, then (if
it returned) set `last_run = now` and increment `run_count`.  A raising
action aborts the block before the two updates. -/
def Task.executeCore (now : Int) (t : Task) : Except String Task :=
  match t.action with
  | .raises msg => Except.error msg
  | .ok => Except.ok { t with last_run := some now, run_count := t.run_count + 1 }

/-- Model of `Task.execute`: skip when disabled; otherwise run the `try`
body and catch any exception (the `except` block only logs, leaving the task
unchanged).  The function is total: no exception propagates to the caller. -/
def Task.execute (now : Int) (t : Task) : Task :=
  if !t.enabled then t
  else
    match t.executeCore now with
    | Except.ok t2 => t2
    | Except.error _ => t

/-- Trigger definitions produced by `Scheduler._schedule_task` via the
schedule library's fluent interface (one constructor per `.do(...)` site). -/
inductive JobSpec
  | intervalSeconds (n : Nat)
  | intervalMinutes (n : Nat)
  | intervalHours (n : Nat)
  | intervalDays (n : Nat)
  | intervalWeeks (n : Nat)
  | everySecond
  | everyMinute
  | everyHour
  | dailyAt (timeSpec : String)
  | daily
  | weekdayAt (dayName : String) (timeSpec : String)
  | weekday (dayName : String)
deriving DecidableEq, Repr

/-- The errors raised by the registry operations (all `ValueError`s in the
code; the specification's taxonomy calls the parse failures
`InvalidScheduleSpec` and the name clash `DuplicateTaskName`), with the data
interpolated into each message. -/
inductive SchedError
  | invalidSpec (spec : String)
  | unknownTimeUnit (unit : String)
  | unknownScheduleUnit (unit : String)
  | duplicateTask (name : String)
deriving DecidableEq, Repr

instance {e a : Type} [DecidableEq e] [DecidableEq a] : DecidableEq (Except e a) := fun x y =>
  match x, y with
  | Except.ok v, Except.ok w => decidable_of_iff (v = w) (by simp)
  | Except.error v, Except.error w => decidable_of_iff (v = w) (by simp)
  | Except.ok _, Except.error _ => isFalse (fun hc => Except.noConfusion hc)
  | Except.error _, Except.ok _ => isFalse (fun hc => Except.noConfusion hc)

/-- The message string of each raised error, as formatted in
`scheduler.py`. -/
def SchedError.message : SchedError → String
  | .invalidSpec s => "Invalid schedule specification: " ++ s
  | .unknownTimeUnit u => "Unknown time unit: " ++ u
  | .unknownScheduleUnit u => "Unknown schedule unit: " ++ u
  | .duplicateTask n => "Task with name " ++ n ++ " already exists"

/-- Python `str.lower()` (ASCII range, which covers the grammar).  The
built-in string functions are opaque to the kernel, so the Python string
operations are modelled over the underlying character list. -/
def pyLower (s : String) : String :=
  String.mk (s.data.map Char.toLower)

/-- Helper for `pySplit`: accumulate the current word (reversed) while
scanning. -/
def splitWsAux : List Char → List Char → List String
  | [], cur => if cur = [] then [] else [String.mk cur.reverse]
  | c :: rest, cur =>
    if c.isWhitespace then
      (if cur = [] then splitWsAux rest [] else String.mk cur.reverse :: splitWsAux rest [])
    else splitWsAux rest (c :: cur)

/-- Python `str.split()`: split on whitespace runs, dropping empty pieces. -/
def pySplit (s : String) : List String :=
  splitWsAux s.data []

/-- Python `str.isdigit()` restricted to ASCII digits. -/
def pyIsDigit (s : String) : Bool :=
  s.data ≠ [] && s.data.all Char.isDigit

/-- Python `str.rstrip('s')`: drop every trailing `s` character. -/
def pyRstripS (s : String) : String :=
  String.mk (s.data.reverse.dropWhile (fun c => c = 's')).reverse

/-- Python `int(...)` on a string of ASCII digits. -/
def pyStrToNat (s : String) : Nat :=
  s.data.foldl (fun n c => 10 * n + (c.toNat - 48)) 0

/-- Substring test: does the pattern occur contiguously in the text?  Used
to state "the error message names the offending phrase". -/
def containsSubL : List Char → List Char → Bool
  | _, [] => true
  | c :: rest, pat => (pat.isPrefixOf (c :: rest)) || containsSubL rest pat
  | [], _ => false

/-- The weekday names accepted by `_schedule_task`. -/
def weekdayNames : List String :=
  ["monday", "tuesday", "wednesday", "thursday", "friday", "saturday", "sunday"]

/-- Model of the parsing logic of `Scheduler._schedule_task`: lower-case the
phrase, split on whitespace, and dispatch on the shape
(every N unit / every unit [at HH:MM] / weekday [at HH:MM]); each failing
shape raises the `ValueError` whose message is recorded in `SchedError`.
The raise for a phrase not starting with "every" (or too short) names the
whole original phrase; the unknown-unit raises name only the unit token. -/
def scheduleSpecParse (spec : String) : Except SchedError JobSpec :=
  let parts := pySplit (pyLower spec)
  if parts = [] ∨ parts.headD "" ≠ "every" then Except.error (.invalidSpec spec)
  else if 3 ≤ parts.length ∧ pyIsDigit (parts.getD 1 "") then
    let interval := pyStrToNat (parts.getD 1 "")
    let unit := pyRstripS (parts.getD 2 "")
    if unit = "second" then Except.ok (.intervalSeconds interval)
    else if unit = "minute" then Except.ok (.intervalMinutes interval)
    else if unit = "hour" then Except.ok (.intervalHours interval)
    else if unit = "day" then Except.ok (.intervalDays interval)
    else if unit = "week" then Except.ok (.intervalWeeks interval)
    else Except.error (.unknownTimeUnit unit)
  else if 2 ≤ parts.length then
    let unit := pyRstripS (parts.getD 1 "")
    if unit = "second" then Except.ok .everySecond
    else if unit = "minute" then Except.ok .everyMinute
    else if unit = "hour" then Except.ok .everyHour
    else if unit = "day" then
      if 4 ≤ parts.length ∧ parts.getD 2 "" = "at" then Except.ok (.dailyAt (parts.getD 3 ""))
      else Except.ok .daily
    else if unit ∈ weekdayNames then
      if 4 ≤ parts.length ∧ parts.getD 2 "" = "at" then
        Except.ok (.weekdayAt unit (parts.getD 3 ""))
      else Except.ok (.weekday unit)
    else Except.error (.unknownScheduleUnit unit)
  else Except.error (.invalidSpec spec)

/-- A job in the process-wide default registry of the third-party schedule
library: the trigger definition together with the task (identified by name)
whose bound `execute` it calls. -/
structure Job where
  taskName : String
  jspec : JobSpec
deriving DecidableEq, Repr

/-- The process-wide state of the schedule library's default scheduler: the
module-level jobs list shared by every `Scheduler` instance in the
process. -/
structure ScheduleWorld where
  jobs : List Job
deriving DecidableEq, Repr

/-- Model of `yasched.scheduler.Scheduler`: the per-instance task map
`self.tasks` (an insertion-ordered dict, keyed by task name). -/
structure Scheduler where
  tasks : List (String × Task)
deriving DecidableEq, Repr

/-- Ordered-dict lookup in the task map. -/
def lookupTask (m : List (String × Task)) (name : String) : Option Task :=
  match m with
  | [] => none
  | (k, v) :: rest => if k = name then some v else lookupTask rest name

/-- Model of `Scheduler.__init__`: a fresh empty task map — and a call to
`schedule.clear()`, which empties the process-wide jobs list (including any
jobs registered by previously constructed `Scheduler` instances). -/
def Scheduler.init (w : ScheduleWorld) : Scheduler × ScheduleWorld :=
  (⟨[]⟩, ⟨[]⟩)

/-- Model of `Scheduler.add_task`: raise `DuplicateTaskName` if the name is
registered; otherwise parse the phrase with `_schedule_task` (which, on
success, appends the trigger job to the process-wide registry) and only then
insert the task into the map.  The returned state is the state at the raise
point, so a raising call leaves both the task map and the registry exactly
as given. -/
def Scheduler.add_task (s : Scheduler) (w : ScheduleWorld) (t : Task) :
    Option SchedError × Scheduler × ScheduleWorld :=
  if (lookupTask s.tasks t.name).isSome then (some (.duplicateTask t.name), s, w)
  else
    match scheduleSpecParse t.schedule_spec with
    | Except.error e => (some e, s, w)
    | Except.ok js => (none, ⟨s.tasks ++ [(t.name, t)]⟩, ⟨w.jobs ++ [⟨t.name, js⟩]⟩)

/-- Point update of the task map entries with the given name. -/
def updateTask : List (String × Task) → String → (Task → Task) → List (String × Task)
  | [], _, _ => []
  | (k, v) :: rest, name, f =>
    (if k = name then (k, f v) else (k, v)) :: updateTask rest name f

/-- Number of jobs in the list that belong to the named task and are due. -/
def dueCount (due : Job → Bool) (name : String) : List Job → Nat
  | [] => 0
  | j :: rest => (if j.taskName = name ∧ due j = true then 1 else 0) + dueCount due name rest

/-- Model of `Scheduler.run_pending` (delegating to
`schedule.run_pending()`): run, in registration order, the bound
`task.execute` of every job that is due at this poll.  Which jobs are due is
the schedule library's bookkeeping (third-party code), abstracted by the
predicate `due`. -/
def run_pending (due : Job → Bool) (now : Int) (w : ScheduleWorld) (s : Scheduler) :
    Scheduler :=
  ⟨w.jobs.foldl
    (fun m j => if due j then updateTask m j.taskName (Task.execute now) else m)
    s.tasks⟩

theorem lookupTask_updateTask_self (m : List (String × Task)) (name : String)
    (f : Task → Task) :
    lookupTask (updateTask m name f) name = (lookupTask m name).map f := by
  induction m with
  | nil => rfl
  | cons p rest ih =>
    obtain ⟨k, v⟩ := p
    rw [updateTask]
    by_cases hk : k = name
    · rw [if_pos hk]
      simp only [lookupTask, if_pos hk]
      rfl
    · rw [if_neg hk]
      simp only [lookupTask, if_neg hk]
      exact ih

theorem lookupTask_updateTask_other (m : List (String × Task)) (name other : String)
    (f : Task → Task) (h : other ≠ name) :
    lookupTask (updateTask m other f) name = lookupTask m name := by
  induction m with
  | nil => rfl
  | cons p rest ih =>
    obtain ⟨k, v⟩ := p
    rw [updateTask]
    by_cases hk : k = other
    · have hkn : k ≠ name := by rw [hk]; exact h
      rw [if_pos hk]
      simp only [lookupTask, if_neg hkn]
      exact ih
    · rw [if_neg hk]
      simp only [lookupTask]
      split_ifs
      · rfl
      · exact ih

theorem run_pending_fold_zero (due : Job → Bool) (now : Int) (name : String) :
    ∀ (jobs : List Job) (m : List (String × Task)),
      dueCount due name jobs = 0 →
      lookupTask
        (jobs.foldl
          (fun m j => if due j then updateTask m j.taskName (Task.execute now) else m) m)
        name = lookupTask m name := by
  intro jobs
  induction jobs with
  | nil => intro m _; rfl
  | cons j rest ih =>
    intro m hcount
    rw [dueCount] at hcount
    simp only [List.foldl_cons]
    by_cases hd : due j
    · rw [if_pos hd]
      have hname : j.taskName ≠ name := by
        intro heq
        rw [if_pos ⟨heq, hd⟩] at hcount
        omega
      have hrest : dueCount due name rest = 0 := by
        split_ifs at hcount <;> omega
      rw [ih _ hrest]
      exact lookupTask_updateTask_other m name j.taskName _ hname
    · rw [if_neg hd]
      refine ih m ?_
      rw [if_neg (by intro hc; exact hd hc.2)] at hcount
      omega

theorem run_pending_fold_one (due : Job → Bool) (now : Int) (name : String) :
    ∀ (jobs : List Job) (m : List (String × Task)),
      dueCount due name jobs = 1 →
      lookupTask
        (jobs.foldl
          (fun m j => if due j then updateTask m j.taskName (Task.execute now) else m) m)
        name = (lookupTask m name).map (Task.execute now) := by
  intro jobs
  induction jobs with
  | nil => intro m h; rw [dueCount] at h; omega
  | cons j rest ih =>
    intro m hcount
    rw [dueCount] at hcount
    simp only [List.foldl_cons]
    by_cases hmatch : j.taskName = name ∧ due j = true
    · obtain ⟨hn, hd⟩ := hmatch
      rw [if_pos hd, hn]
      rw [if_pos ⟨hn, hd⟩] at hcount
      have hrest : dueCount due name rest = 0 := by omega
      rw [run_pending_fold_zero due now name rest _ hrest]
      exact lookupTask_updateTask_self m name (Task.execute now)
    · rw [if_neg hmatch] at hcount
      have hcnt : dueCount due name rest = 1 := by omega
      by_cases hd : due j
      · rw [if_pos hd]
        by_cases hn : j.taskName = name
        · exact absurd ⟨hn, hd⟩ hmatch
        · rw [ih _ hcnt, lookupTask_updateTask_other m name j.taskName _ hn]
      · rw [if_neg hd]
        exact ih m hcnt

/-- C1 counterexample: an enabled task whose action raises does not have its
`run_count` incremented nor its `last_run` set by `Task.execute` — both
updates sit after the action call inside the `try` block, so the exception
skips them.  Concretely, a fresh failing task still has `run_count = 0` and
`last_run = None` after execution. -/
theorem C1_runcount_counterexample :
    ¬ ((Task.execute 100 (Task.mk "t" "every 1 hour" (ActionResult.raises "boom")
          true 0 none)).run_count = 1 ∧
       (Task.execute 100 (Task.mk "t" "every 1 hour" (ActionResult.raises "boom")
          true 0 none)).last_run = some 100) := by
  decide

/-- C1 amended: for an enabled task, `Task.execute` increments `run_count`
and sets `last_run` to the poll time exactly when the action returns
normally; when the action raises, the exception is contained but both
statistics are left unchanged. -/
theorem C1_execute_updates_only_on_success (now : Int) (t : Task)
    (ht : t.enabled = true) :
    (t.action = ActionResult.ok →
        Task.execute now t =
          { t with last_run := some now, run_count := t.run_count + 1 }) ∧
      (∀ msg, t.action = ActionResult.raises msg → Task.execute now t = t) := by
  constructor
  · intro hact
    simp [Task.execute, Task.executeCore, ht, hact]
  · intro msg hact
    simp [Task.execute, Task.executeCore, ht, hact]

/-- Witness for C1 (amended): a succeeding and a failing concrete task. -/
theorem C1_execute_updates_only_on_success_witness :
    Task.execute 100 (Task.mk "ok" "every 1 hour" ActionResult.ok true 0 none) =
        Task.mk "ok" "every 1 hour" ActionResult.ok true 1 (some 100) ∧
      Task.execute 100 (Task.mk "t" "every 1 hour" (ActionResult.raises "boom")
          true 3 (some 7)) =
        Task.mk "t" "every 1 hour" (ActionResult.raises "boom") true 3 (some 7) :=
  ⟨(C1_execute_updates_only_on_success 100
      (Task.mk "ok" "every 1 hour" ActionResult.ok true 0 none) rfl).1 rfl,
   (C1_execute_updates_only_on_success 100
      (Task.mk "t" "every 1 hour" (ActionResult.raises "boom") true 3 (some 7)) rfl).2
     "boom" rfl⟩

/-- Example task used in the scheduler scenarios: a succeeding hourly task. -/
def taskBackup : Task := Task.mk "backup" "every 1 hour" ActionResult.ok true 0 none

/-- C4 counterexample: `Scheduler.__init__` calls `schedule.clear()` on the
process-wide registry, so constructing a second `Scheduler` erases the
trigger job the first scheduler had registered, contradicting the claim that
the first scheduler's scheduled trigger jobs are left unchanged. -/
theorem C4_shared_registry_counterexample :
    (Scheduler.add_task ⟨[]⟩ ⟨[]⟩ taskBackup).2.2.jobs ≠ [] ∧
      (Scheduler.init (Scheduler.add_task ⟨[]⟩ ⟨[]⟩ taskBackup).2.2).2.jobs ≠
        (Scheduler.add_task ⟨[]⟩ ⟨[]⟩ taskBackup).2.2.jobs := by
  constructor <;> decide

/-- C4 amended: the trigger set is a process-wide shared object, not a
per-instance one.  Registering a task in a first (fresh) scheduler appends
its trigger job to the shared registry; constructing a second scheduler
leaves the first scheduler's own task map untouched (task maps are
per-instance) but empties the shared registry, destroying the first
scheduler's trigger jobs. -/
theorem C4_init_clears_shared_registry (t : Task) (js : JobSpec)
    (hparse : scheduleSpecParse t.schedule_spec = Except.ok js) :
    (Scheduler.add_task ⟨[]⟩ ⟨[]⟩ t).1 = none ∧
      (Scheduler.add_task ⟨[]⟩ ⟨[]⟩ t).2.1.tasks = [(t.name, t)] ∧
      (Scheduler.add_task ⟨[]⟩ ⟨[]⟩ t).2.2.jobs = [Job.mk t.name js] ∧
      ∀ w : ScheduleWorld,
        (Scheduler.init w).1.tasks = [] ∧ (Scheduler.init w).2.jobs = [] := by
  refine ⟨?_, ?_, ?_, fun w => ⟨rfl, rfl⟩⟩ <;>
    simp [Scheduler.add_task, lookupTask, hparse]

/-- Witness for C4 (amended) with the concrete hourly backup task. -/
theorem C4_init_clears_shared_registry_witness :
    (Scheduler.add_task ⟨[]⟩ ⟨[]⟩ taskBackup).1 = none ∧
      (Scheduler.add_task ⟨[]⟩ ⟨[]⟩ taskBackup).2.1.tasks = [("backup", taskBackup)] ∧
      (Scheduler.add_task ⟨[]⟩ ⟨[]⟩ taskBackup).2.2.jobs =
        [Job.mk "backup" (JobSpec.intervalHours 1)] ∧
      ∀ w : ScheduleWorld,
        (Scheduler.init w).1.tasks = [] ∧ (Scheduler.init w).2.jobs = [] :=
  C4_init_clears_shared_registry taskBackup (JobSpec.intervalHours 1) (by decide)

/-- C5 counterexample: registering a task with the phrase "every banana"
raises the error `Unknown schedule unit: banana`, which names only the unit
token — the full offending phrase "every banana" does not occur as a
substring of the message. -/
theorem C5_message_counterexample :
    scheduleSpecParse "every banana" =
        Except.error (SchedError.unknownScheduleUnit "banana") ∧
      containsSubL ((SchedError.unknownScheduleUnit "banana").message).data
          "every banana".data = false := by
  constructor <;> decide

/-- C5 amended: registering a task whose phrase fails to parse raises the
parse error (for "every banana": a ValueError naming the offending unit
"banana", not the whole phrase) and leaves the task map and the trigger
registry exactly as they were, so the task is absent afterwards. -/
theorem C5_invalid_spec_rejected_atomically (s : Scheduler) (w : ScheduleWorld)
    (t : Task) (e : SchedError)
    (hfresh : lookupTask s.tasks t.name = none)
    (hparse : scheduleSpecParse t.schedule_spec = Except.error e) :
    Scheduler.add_task s w t = (some e, s, w) := by
  simp [Scheduler.add_task, hfresh, hparse]

/-- Witness for C5 (amended): adding a task with spec "every banana" to an
empty scheduler fails with the unknown-unit error and changes nothing. -/
theorem C5_invalid_spec_rejected_atomically_witness :
    Scheduler.add_task ⟨[]⟩ ⟨[]⟩
        (Task.mk "b" "every banana" ActionResult.ok true 0 none) =
      (some (SchedError.unknownScheduleUnit "banana"), ⟨[]⟩, ⟨[]⟩) :=
  C5_invalid_spec_rejected_atomically ⟨[]⟩ ⟨[]⟩
    (Task.mk "b" "every banana" ActionResult.ok true 0 none)
    (SchedError.unknownScheduleUnit "banana") rfl (by decide)

/-- C6: run-time action errors are contained: the `try`/`except` in
`Task.execute` catches the raised exception (the core body errors, the
wrapper returns the task unchanged), and during a poll every due job of an
enabled task whose action succeeds still records its run — no matter what
the sibling tasks in the same registry/job list do, including raising. -/
theorem C6_failure_isolation :
    (∀ (now : Int) (t : Task) (msg : String), t.enabled = true →
        t.action = ActionResult.raises msg →
        Task.executeCore now t = Except.error msg ∧ Task.execute now t = t) ∧
      (∀ (due : Job → Bool) (now : Int) (w : ScheduleWorld) (s : Scheduler)
          (name : String) (t : Task),
        lookupTask s.tasks name = some t → t.enabled = true →
        t.action = ActionResult.ok → dueCount due name w.jobs = 1 →
        lookupTask (run_pending due now w s).tasks name =
          some { t with last_run := some now, run_count := t.run_count + 1 }) := by
  constructor
  · intro now t msg ht hact
    constructor
    · simp [Task.executeCore, hact]
    · simp [Task.execute, Task.executeCore, ht, hact]
  · intro due now w s name t hlook ht hact hcount
    unfold run_pending
    rw [run_pending_fold_one due now name w.jobs s.tasks hcount, hlook]
    simp [Task.execute, Task.executeCore, ht, hact]

/-- Witness for C6: a failing task and a succeeding sibling, both due in the
same cycle; the failing task's error is caught and the sibling still runs. -/
theorem C6_failure_isolation_witness :
    (Task.executeCore 100 (Task.mk "bad" "every 1 hour" (ActionResult.raises "boom")
          true 0 none) = Except.error "boom" ∧
      Task.execute 100 (Task.mk "bad" "every 1 hour" (ActionResult.raises "boom")
          true 0 none) =
        Task.mk "bad" "every 1 hour" (ActionResult.raises "boom") true 0 none) ∧
      lookupTask
        (run_pending (fun _ => true) 100
          ⟨[Job.mk "bad" (JobSpec.intervalHours 1), Job.mk "good" (JobSpec.intervalHours 1)]⟩
          ⟨[("bad", Task.mk "bad" "every 1 hour" (ActionResult.raises "boom") true 0 none),
            ("good", Task.mk "good" "every 1 hour" ActionResult.ok true 0 none)]⟩).tasks
        "good" =
      some (Task.mk "good" "every 1 hour" ActionResult.ok true 1 (some 100)) :=
  ⟨C6_failure_isolation.1 100
      (Task.mk "bad" "every 1 hour" (ActionResult.raises "boom") true 0 none) "boom"
      rfl rfl,
   C6_failure_isolation.2 (fun _ => true) 100
      ⟨[Job.mk "bad" (JobSpec.intervalHours 1), Job.mk "good" (JobSpec.intervalHours 1)]⟩
      ⟨[("bad", Task.mk "bad" "every 1 hour" (ActionResult.raises "boom") true 0 none),
        ("good", Task.mk "good" "every 1 hour" ActionResult.ok true 0 none)]⟩
      "good" (Task.mk "good" "every 1 hour" ActionResult.ok true 0 none)
      (by decide) rfl rfl (by decide)⟩
